import Mathlib

/-!
Verification of the AURIA runtime-core specification against `src/lib.rs`.

The crate `auria-core` defines the shared vocabulary (types only); the
behavioural components (ShardStore, LicenseValidator, UsageMeter,
TierManager) are specified in the design document but their code is not
part of this crate, so they are modelled from the spec where needed.
Machine integers (`u32`, `u64`) are embedded as `Nat` (no claim here
exercises overflow); byte values are `Nat` with explicit `< 256` bounds.
-/

namespace Auria

/-- TensorDType from src/lib.rs lines 46-53: `FP16`, `FP8`, `INT8`, `INT4`. -/
inductive TensorDType where
  | FP16
  | FP8
  | INT8
  | INT4
deriving DecidableEq

/-- Tensor from src/lib.rs lines 39-44: raw bytes, shape, dtype. -/
structure Tensor where
  data : List Nat
  shape : List Nat
  dtype : TensorDType
deriving DecidableEq

/-- ShardId from src/lib.rs line 87: newtype over `[u8; 32]`. -/
structure ShardId where
  bytes : List Nat
deriving DecidableEq

/-- ExpertId from src/lib.rs line 91: newtype over `[u8; 32]`. -/
structure ExpertId where
  bytes : List Nat
deriving DecidableEq

/-- PublicKey from src/lib.rs line 95: newtype over `[u8; 32]`. -/
structure PublicKey where
  bytes : List Nat
deriving DecidableEq

/-- Signature from src/lib.rs line 99: newtype over `[u8; 64]`. -/
structure Signature where
  bytes : List Nat
deriving DecidableEq

/-- Hash from src/lib.rs line 103: newtype over `[u8; 32]`. -/
structure Hash where
  bytes : List Nat
deriving DecidableEq

/-- RequestId from src/lib.rs line 183: newtype over `[u8; 16]`. -/
structure RequestId where
  bytes : List Nat
deriving DecidableEq

/-- Tier from src/lib.rs lines 122-128 (hardware capability tier). -/
inductive Tier where
  | Nano
  | Standard
  | Pro
  | Max
deriving DecidableEq

/-- AuriaError from src/lib.rs lines 347-381. -/
inductive AuriaError where
  | ShardNotFound (id : ShardId)
  | ExpertNotFound (id : ExpertId)
  | LicenseInvalid (id : ShardId)
  | InsufficientHardware (t : Tier)
  | StorageError (msg : String)
  | ExecutionError (msg : String)
  | NetworkError (msg : String)
  | SerializationError (msg : String)
  | ConfigError (msg : String)
  | SecurityError (msg : String)
  | ClusterError (msg : String)
deriving DecidableEq

/-! ## Hex serialization (src/lib.rs lines 11-37, `impl_hex_serialize!`)

The macro serializes an identifier with `hex::encode` (lowercase output)
and deserializes with `hex::decode` (accepts upper- and lowercase digits,
fails on odd length or a non-hex character), then checks the decoded
byte count against the fixed width. -/

/-- Hex digit character for a nibble value `v < 16`; `upper = false` gives
the lowercase digits that `hex::encode` emits, `upper = true` the uppercase
variants used to state case-insensitivity of `hex::decode`. -/
def nibbleChar (upper : Bool) (v : Nat) : Char :=
  if v < 10 then Char.ofNat (48 + v)
  else Char.ofNat ((if upper then 55 else 87) + v)

/-- Value of one hex digit as decoded by `hex::decode`: `0`-`9`, `a`-`f`
and `A`-`F` are accepted, anything else is rejected. -/
def hexDigitVal (c : Char) : Option Nat :=
  if 48 ≤ c.toNat ∧ c.toNat ≤ 57 then some (c.toNat - 48)
  else if 97 ≤ c.toNat ∧ c.toNat ≤ 102 then some (c.toNat - 87)
  else if 65 ≤ c.toNat ∧ c.toNat ≤ 70 then some (c.toNat - 55)
  else none

/-- Hex encoding of a byte list, two digits per byte, most significant
nibble first; the case of the digit at position `i` is `caseOf i`
(`hex::encode` itself is `hexEncodeWith (fun _ => false) 0`). -/
def hexEncodeWith (caseOf : Nat → Bool) : Nat → List Nat → List Char
  | _, [] => []
  | i, b :: rest =>
    nibbleChar (caseOf i) (b / 16) :: nibbleChar (caseOf (i + 1)) (b % 16) ::
      hexEncodeWith caseOf (i + 2) rest

/-- Model of `hex::encode`: lowercase hex, two characters per byte. -/
def hexEncode (bs : List Nat) : List Char :=
  hexEncodeWith (fun _ => false) 0 bs

/-- Model of `hex::decode`: consumes characters in pairs, fails on odd
length or on any character that is not a hex digit. -/
def hexDecode : List Char → Option (List Nat)
  | [] => some []
  | [_] => none
  | c1 :: c2 :: rest =>
    match hexDigitVal c1, hexDigitVal c2, hexDecode rest with
    | some h, some l, some bs => some ((16 * h + l) :: bs)
    | _, _, _ => none

/-- Serialize of `impl_hex_serialize!`: `hex::encode` of the byte array. -/
def serializeId (bs : List Nat) : String :=
  ⟨hexEncode bs⟩

/-- Deserialize of `impl_hex_serialize!` for an identifier of byte width
`n`: `hex::decode` the string, then reject unless exactly `n` bytes came
out (the `bytes.len() != $len` check at src/lib.rs line 28). -/
def deserializeId (n : Nat) (s : String) : Option (List Nat) :=
  match hexDecode s.data with
  | none => none
  | some bs => if bs.length = n then some bs else none

/-- Recognizer for the encoding described in the spec: every character a
lowercase hex digit. -/
def isLowerHexDigit (c : Char) : Bool :=
  (48 ≤ c.toNat && c.toNat ≤ 57) || (97 ≤ c.toNat && c.toNat ≤ 102)

/-- A string in the spec §3 wire encoding: all lowercase hex digits. -/
def isLowerHexStr (s : String) : Bool :=
  s.data.all (fun c => isLowerHexDigit c)

theorem hexDigitVal_nibbleChar : ∀ (v : Fin 16) (u : Bool),
    hexDigitVal (nibbleChar u v.val) = some v.val := by
  decide

theorem isLowerHexDigit_nibbleChar : ∀ v : Fin 16,
    isLowerHexDigit (nibbleChar false v.val) = true := by
  decide

theorem hexEncodeWith_length (caseOf : Nat → Bool) :
    ∀ (i : Nat) (bs : List Nat),
      (hexEncodeWith caseOf i bs).length = 2 * bs.length := by
  intro i bs
  induction bs generalizing i with
  | nil => simp [hexEncodeWith]
  | cons b rest ih =>
    simp [hexEncodeWith, ih]
    omega

theorem hexDecode_hexEncodeWith (caseOf : Nat → Bool) :
    ∀ (bs : List Nat), (∀ b ∈ bs, b < 256) → ∀ (i : Nat),
      hexDecode (hexEncodeWith caseOf i bs) = some bs := by
  intro bs hb
  induction bs with
  | nil => intro i; simp [hexEncodeWith, hexDecode]
  | cons b rest ih =>
    intro i
    have hblt : b < 256 := hb b (List.mem_cons_self b rest)
    have hhi : b / 16 < 16 := by omega
    have hlo : b % 16 < 16 := Nat.mod_lt b (by omega)
    have h1 := hexDigitVal_nibbleChar ⟨b / 16, hhi⟩ (caseOf i)
    have h2 := hexDigitVal_nibbleChar ⟨b % 16, hlo⟩ (caseOf (i + 1))
    have h3 := ih (fun x hx => hb x (List.mem_cons_of_mem b hx)) (i + 2)
    simp only [hexEncodeWith, hexDecode, h1, h2, h3]
    have : 16 * (b / 16) + b % 16 = b := by omega
    rw [this]

theorem hexEncode_lower (bs : List Nat) (hb : ∀ b ∈ bs, b < 256) :
    ∀ c ∈ hexEncode bs, isLowerHexDigit c = true := by
  unfold hexEncode
  generalize 0 = i
  induction bs generalizing i with
  | nil => simp [hexEncodeWith]
  | cons b rest ih =>
    have hblt : b < 256 := hb b (List.mem_cons_self b rest)
    have hhi : b / 16 < 16 := by omega
    have hlo : b % 16 < 16 := Nat.mod_lt b (by omega)
    intro c hc
    simp only [hexEncodeWith, List.mem_cons] at hc
    rcases hc with rfl | rfl | hc
    · exact isLowerHexDigit_nibbleChar ⟨b / 16, hhi⟩
    · exact isLowerHexDigit_nibbleChar ⟨b % 16, hlo⟩
    · exact ih (fun x hx => hb x (List.mem_cons_of_mem b hx)) (i + 2) c hc

/-- C8: serialization of a fixed-width identifier yields a lowercase hex
string of exactly twice the byte width, deserializing it returns the
original bytes, and identifier equality is byte-exact (the derived
`PartialEq` compares the underlying arrays). -/
theorem C8_identifier_hex_roundtrip :
    (∀ (n : Nat) (bs : List Nat), bs.length = n → (∀ b ∈ bs, b < 256) →
      (serializeId bs).data.length = 2 * n ∧
      (∀ c ∈ (serializeId bs).data, isLowerHexDigit c = true) ∧
      deserializeId n (serializeId bs) = some bs) ∧
    (∀ a b : ShardId, a = b ↔ a.bytes = b.bytes) ∧
    (∀ a b : Signature, a = b ↔ a.bytes = b.bytes) ∧
    (∀ a b : RequestId, a = b ↔ a.bytes = b.bytes) := by
  refine ⟨?_, ?_, ?_, ?_⟩
  · intro n bs hlen hb
    refine ⟨?_, ?_, ?_⟩
    · show (hexEncode bs).length = 2 * n
      rw [hexEncode, hexEncodeWith_length, hlen]
    · intro c hc
      exact hexEncode_lower bs hb c hc
    · show deserializeId n ⟨hexEncode bs⟩ = some bs
      unfold deserializeId
      rw [show (String.mk (hexEncode bs)).data = hexEncode bs from rfl]
      rw [hexEncode, hexDecode_hexEncodeWith (fun _ => false) bs hb 0]
      simp [hlen]
  · intro a b
    cases a; cases b; simp
  · intro a b
    cases a; cases b; simp
  · intro a b
    cases a; cases b; simp

/-- Witness for C8 at a concrete identifier: the 32-byte array
`[0, 1, ..., 31]` serializes to 64 lowercase hex characters and
round-trips. -/
theorem C8_identifier_hex_roundtrip_witness :
    deserializeId 32 (serializeId (List.range 32)) = some (List.range 32) :=
  ((C8_identifier_hex_roundtrip.1 32 (List.range 32) (by decide)
    (by decide)).2.2)

theorem hexDecode_isSome_iff : ∀ cs : List Char,
    (hexDecode cs).isSome = true ↔
      cs.length % 2 = 0 ∧ ∀ c ∈ cs, (hexDigitVal c).isSome = true := by
  intro cs
  induction cs using hexDecode.induct with
  | case1 => simp [hexDecode]
  | case2 c => simp [hexDecode]
  | case3 c1 c2 rest h l bs hdec hv2 hv1 ih =>
    simp only [hexDecode, hv1, hv2, hdec, List.length_cons, List.mem_cons]
    constructor
    · intro _
      have hrest := ih.mp (by simp [hdec])
      refine ⟨by omega, ?_⟩
      intro c hc
      rcases hc with rfl | rfl | hc
      · simp [hv1]
      · simp [hv2]
      · exact hrest.2 c hc
    · intro _; rfl
  | case4 c1 c2 rest hfail ih =>
    simp only [hexDecode, List.length_cons, List.mem_cons]
    constructor
    · intro hcontra
      exfalso
      revert hcontra
      match hv1 : hexDigitVal c1, hv2 : hexDigitVal c2, hv3 : hexDecode rest with
      | some h, some l, some bs => intro _; exact hfail h l bs hv1 hv2 hv3
      | none, _, _ => intro hcontra; simp at hcontra
      | some _, none, _ => intro hcontra; simp at hcontra
      | some _, some _, none => intro hcontra; simp at hcontra
    · intro hrhs
      obtain ⟨hmod, hall⟩ := hrhs
      have hv1 : (hexDigitVal c1).isSome = true := hall c1 (Or.inl rfl)
      have hv2 : (hexDigitVal c2).isSome = true := hall c2 (Or.inr (Or.inl rfl))
      have hv3 : (hexDecode rest).isSome = true := by
        rw [ih]
        exact ⟨by omega, fun c hc => hall c (Or.inr (Or.inr hc))⟩
      exfalso
      match hw1 : hexDigitVal c1, hw2 : hexDigitVal c2, hw3 : hexDecode rest with
      | some h, some l, some bs => exact hfail h l bs hw1 hw2 hw3
      | none, _, _ => rw [hw1] at hv1; simp at hv1
      | some _, none, _ => rw [hw2] at hv2; simp at hv2
      | some _, some _, none => rw [hw3] at hv3; simp at hv3

theorem hexDecode_length : ∀ (cs : List Char) (bs : List Nat),
    hexDecode cs = some bs → cs.length = 2 * bs.length := by
  intro cs
  induction cs using hexDecode.induct with
  | case1 => intro bs h; simp [hexDecode] at h; simp [← h]
  | case2 c => intro bs h; simp [hexDecode] at h
  | case3 c1 c2 rest h l bs0 hdec hv2 hv1 ih =>
    intro bs hbs
    simp only [hexDecode, hv1, hv2, hdec, Option.some.injEq] at hbs
    have hrec := ih bs0 hdec
    simp [← hbs, List.length_cons, hrec]
    omega
  | case4 c1 c2 rest hfail ih =>
    intro bs hbs
    exfalso
    revert hbs
    match hv1 : hexDigitVal c1, hv2 : hexDigitVal c2, hv3 : hexDecode rest with
    | some h, some l, some bs0 => intro _; exact hfail h l bs0 hv1 hv2 hv3
    | none, _, _ => intro hbs; simp [hexDecode, hv1] at hbs
    | some _, none, _ => intro hbs; simp [hexDecode, hv1, hv2] at hbs
    | some _, some _, none => intro hbs; simp [hexDecode, hv1, hv2, hv3] at hbs

/-- C9 as amended: deserialization of a width-`n` identifier succeeds
exactly on strings of length `2 * n` whose characters are all hex digits
(of either case); every other string (wrong length, non-hex character)
fails. -/
theorem C9_deserialize_domain (n : Nat) (s : String) :
    (deserializeId n s).isSome = true ↔
      s.data.length = 2 * n ∧ ∀ c ∈ s.data, (hexDigitVal c).isSome = true := by
  unfold deserializeId
  constructor
  · intro hsome
    revert hsome
    match hdec : hexDecode s.data with
    | none => intro hsome; simp at hsome
    | some bs =>
      intro hsome
      have hlen := hexDecode_length s.data bs hdec
      have hval : (hexDecode s.data).isSome = true := by simp [hdec]
      have hall := (hexDecode_isSome_iff s.data).mp hval
      by_cases hn : bs.length = n
      · exact ⟨by omega, hall.2⟩
      · simp [hn] at hsome
  · intro ⟨hlen, hall⟩
    have hval : (hexDecode s.data).isSome = true :=
      (hexDecode_isSome_iff s.data).mpr ⟨by omega, hall⟩
    revert hval
    match hdec : hexDecode s.data with
    | none => intro hval; simp at hval
    | some bs =>
      intro _
      have := hexDecode_length s.data bs hdec
      have hn : bs.length = n := by omega
      simp [hn]

/-- Concrete input refuting C9 as stated: this 64-character uppercase
string is not in the lowercase encoding of §3, yet deserialization
accepts it (`hex::decode` is case-insensitive). -/
theorem C9_deserialize_domain_counterexample :
    isLowerHexStr "00112233445566778899AABBCCDDEEFF00112233445566778899AABBCCDDEEFF"
        = false ∧
    (deserializeId 32
        "00112233445566778899AABBCCDDEEFF00112233445566778899AABBCCDDEEFF").isSome
        = true := by
  constructor
  · decide
  · decide

/-- C10: deserialization is case-insensitive — re-encoding the same bytes
with any mix of upper- and lowercase digits yields a string that is
accepted and decodes to the same identifier value as the lowercase
serialization. -/
theorem C10_deserialize_case_insensitive (n : Nat) (caseOf : Nat → Bool)
    (bs : List Nat) (hlen : bs.length = n) (hb : ∀ b ∈ bs, b < 256) :
    deserializeId n ⟨hexEncodeWith caseOf 0 bs⟩ = deserializeId n (serializeId bs) ∧
    deserializeId n ⟨hexEncodeWith caseOf 0 bs⟩ = some bs := by
  have hmix : deserializeId n ⟨hexEncodeWith caseOf 0 bs⟩ = some bs := by
    unfold deserializeId
    rw [show (String.mk (hexEncodeWith caseOf 0 bs)).data
        = hexEncodeWith caseOf 0 bs from rfl]
    rw [hexDecode_hexEncodeWith caseOf bs hb 0]
    simp [hlen]
  have hlow : deserializeId n (serializeId bs) = some bs := by
    unfold deserializeId serializeId
    rw [show (String.mk (hexEncode bs)).data = hexEncode bs from rfl]
    rw [hexEncode, hexDecode_hexEncodeWith (fun _ => false) bs hb 0]
    simp [hlen]
  exact ⟨by rw [hmix, hlow], hmix⟩

/-- Witness for C10: the all-uppercase encoding of the two bytes
`[171, 205]` ("ABCD") deserializes to those bytes. -/
theorem C10_deserialize_case_insensitive_witness :
    deserializeId 2 ⟨hexEncodeWith (fun _ => true) 0 [171, 205]⟩ = some [171, 205] :=
  (C10_deserialize_case_insensitive 2 (fun _ => true) [171, 205] (by decide)
    (by decide)).2

/-! ## ShardStore (spec §4.1; behaviour not present in `src/`) -/

/-- ShardMetadata from src/lib.rs lines 63-69. -/
structure ShardMetadata where
  owner : PublicKey
  license_hash : Option Hash
  created_at : Nat
  version : Nat
deriving DecidableEq

/-- Shard from src/lib.rs lines 55-61. -/
structure Shard where
  shard_id : ShardId
  expert_id : ExpertId
  tensor : Tensor
  metadata : ShardMetadata
deriving DecidableEq

/-- Bit width of one element of each dtype (`FP16` 16 bits, `FP8` and
`INT8` 8 bits, `INT4` 4 bits). -/
def dtypeBits : TensorDType → Nat
  | .FP16 => 16
  | .FP8 => 8
  | .INT8 => 8
  | .INT4 => 4

/-- Element count of a tensor: product of the dimension sizes. -/
def Tensor.numel (t : Tensor) : Nat :=
  t.shape.foldl (fun a b => a * b) 1

/-- Byte size implied by `shape` and `dtype` (spec §3 Tensor invariant):
element count times element bit width, packed into whole bytes. -/
def Tensor.impliedByteSize (t : Tensor) : Nat :=
  (t.numel * dtypeBits t.dtype + 7) / 8

/-- Spec §3 Tensor invariant as a decidable check: `data.len()` equals
the byte size implied by `shape` and `dtype`. -/
def Tensor.sizeValid (t : Tensor) : Bool :=
  t.data.length == t.impliedByteSize

/-- Modelled from the spec: the ShardStore (spec §4.1), whose code is not
part of this crate (`src/lib.rs` only defines the vocabulary). It is a
content-addressed table from `ShardId` to `Shard`. -/
structure ShardStore where
  entries : List (ShardId × Shard)
deriving DecidableEq

/-- Modelled from the spec: `get(id)` fails with `ShardNotFound` if the
id is absent (spec §4.1), otherwise returns the stored shard. -/
def ShardStore.get (st : ShardStore) (id : ShardId) : Except AuriaError Shard :=
  match st.entries.lookup id with
  | some s => .ok s
  | none => .error (.ShardNotFound id)

/-- Modelled from the spec: `put(shard) -> ShardId` (spec §4.1), with the
store boundary rejecting tensors that violate the §3 size invariant
("violated tensors are rejected at the store boundary, never silently
truncated"). The content address is computed by the hash function
`contentId` (abstracted); on success the shard is stored unchanged under
that id and the id is returned, on failure nothing is stored. -/
def ShardStore.put (contentId : Shard → ShardId) (st : ShardStore) (s : Shard) :
    Except AuriaError (ShardId × ShardStore) :=
  if s.tensor.sizeValid then
    .ok (contentId s, ⟨(contentId s, s) :: st.entries⟩)
  else
    .error (.StorageError "tensor byte length does not match shape and dtype")

/-- C1: a tensor whose byte length differs from the size implied by its
shape and dtype is rejected by `put` with an error, and no store state is
produced — the shard is never stored truncated or otherwise. -/
theorem C1_invalid_tensor_rejected (contentId : Shard → ShardId)
    (st : ShardStore) (s : Shard)
    (hbad : s.tensor.data.length ≠ s.tensor.impliedByteSize) :
    ShardStore.put contentId st s
        = .error (.StorageError "tensor byte length does not match shape and dtype") ∧
    ∀ (id : ShardId) (st' : ShardStore),
      ShardStore.put contentId st s ≠ .ok (id, st') := by
  have hval : s.tensor.sizeValid = false := by
    unfold Tensor.sizeValid
    simp [hbad]
  constructor
  · unfold ShardStore.put
    simp [hval]
  · intro id st'
    unfold ShardStore.put
    simp [hval]

/-- Witness for C1: a 1-byte payload claiming shape `[2]` at `FP16`
(implied size 4 bytes) is rejected and never stored. -/
theorem C1_invalid_tensor_rejected_witness :
    ShardStore.put (fun s => s.shard_id) ⟨[]⟩
        ⟨⟨[0]⟩, ⟨[1]⟩, ⟨[7], [2], .FP16⟩, ⟨⟨[2]⟩, none, 0, 1⟩⟩
      = .error (.StorageError "tensor byte length does not match shape and dtype") :=
  (C1_invalid_tensor_rejected (fun s => s.shard_id) ⟨[]⟩
    ⟨⟨[0]⟩, ⟨[1]⟩, ⟨[7], [2], .FP16⟩, ⟨⟨[2]⟩, none, 0, 1⟩⟩ (by decide)).1

/-- C2: after a successful `put(s)` returning `id`, `get(id)` succeeds
and returns exactly the stored shard `s` (payload and metadata
unchanged; equality on the model is byte-exact structural equality). -/
theorem C2_get_after_put (contentId : Shard → ShardId)
    (st : ShardStore) (s : Shard) (id : ShardId) (st' : ShardStore)
    (hput : ShardStore.put contentId st s = .ok (id, st')) :
    st'.get id = .ok s := by
  unfold ShardStore.put at hput
  by_cases hval : s.tensor.sizeValid
  · simp [hval] at hput
    obtain ⟨hid, hst⟩ := hput
    subst hid
    subst hst
    unfold ShardStore.get
    simp [List.lookup]
  · simp [hval] at hput

/-- Witness for C2: a concrete valid shard round-trips through the
store. -/
theorem C2_get_after_put_witness :
    (ShardStore.mk [(⟨[9]⟩, ⟨⟨[9]⟩, ⟨[1]⟩, ⟨[7, 8], [1], .FP16⟩, ⟨⟨[2]⟩, none, 0, 1⟩⟩)]).get ⟨[9]⟩
      = .ok ⟨⟨[9]⟩, ⟨[1]⟩, ⟨[7, 8], [1], .FP16⟩, ⟨⟨[2]⟩, none, 0, 1⟩⟩ :=
  C2_get_after_put (fun _ => ⟨[9]⟩) ⟨[]⟩
    ⟨⟨[9]⟩, ⟨[1]⟩, ⟨[7, 8], [1], .FP16⟩, ⟨⟨[2]⟩, none, 0, 1⟩⟩ ⟨[9]⟩
    (ShardStore.mk [(⟨[9]⟩, ⟨⟨[9]⟩, ⟨[1]⟩, ⟨[7, 8], [1], .FP16⟩, ⟨⟨[2]⟩, none, 0, 1⟩⟩)])
    rfl

/-! ## LicenseValidator (spec §4.2; behaviour not present in `src/`) -/

/-- License from src/lib.rs lines 157-163: binds a shard to a node key
with an expiry and a signature over (shard_id, node_pubkey, expiry). -/
structure License where
  shard_id : ShardId
  node_pubkey : PublicKey
  expiry_timestamp : Nat
  signature : Signature
deriving DecidableEq

/-- RateLimit from src/lib.rs lines 277-281. -/
structure RateLimit where
  requests_per_second : Nat
  burst_size : Nat
deriving DecidableEq

/-- LicenseType from src/lib.rs lines 258-275. The `f64 cost_per_token`
of the pay-per-use arm is embedded as `ℚ`; every numeric value the
claims exercise (2.0, and products up to 110) is exactly representable
in `f64`, so `f64` and `ℚ` arithmetic agree on them. -/
inductive LicenseType where
  | Subscription (tier : String) (max_requests_per_day : Nat)
  | PayPerUse (credits : Nat) (cost_per_token : ℚ)
  | Enterprise (unlimited : Bool) (max_concurrent_requests : Nat)
  | Community (tier : String)
deriving DecidableEq

/-- LicenseTerms from src/lib.rs lines 250-256. -/
structure LicenseTerms where
  license_type : LicenseType
  max_shards : Nat
  allowed_tiers : List String
  rate_limit : Option RateLimit
deriving DecidableEq

/-- LicenseUsage from src/lib.rs lines 283-290: the mutable running
counters keyed by (license identity, node key). -/
structure LicenseUsage where
  license_id : ShardId
  node_pubkey : PublicKey
  tokens_used : Nat
  requests_made : Nat
  last_updated : Nat
deriving DecidableEq

/-- Modelled from the spec: the validator's license lookup (spec §4.2
"locate the license bound to (shard_id, node_pubkey)"); the license
table pairs each license with its terms. -/
def findLicense (table : List (License × LicenseTerms)) (sid : ShardId)
    (pk : PublicKey) : Option (License × LicenseTerms) :=
  table.find? (fun p => p.1.shard_id == sid && p.1.node_pubkey == pk)

/-- Modelled from the spec: `LicenseValidator::validate` (spec §4.2),
whose code is not part of this crate. Steps: locate the license bound to
(shard_id, node_pubkey); verify `now < expiry_timestamp`; verify the
signature over (shard_id, node_pubkey, expiry) against the issuing
authority's key — signature checking is abstracted as the boolean oracle
`verifySig`. Every failure returns the same `LicenseInvalid(shard_id)`. -/
def validate (table : List (License × LicenseTerms))
    (verifySig : Signature → ShardId → PublicKey → Nat → Bool)
    (sid : ShardId) (pk : PublicKey) (now : Nat) :
    Except AuriaError LicenseTerms :=
  match findLicense table sid pk with
  | none => .error (.LicenseInvalid sid)
  | some (lic, terms) =>
    if now < lic.expiry_timestamp then
      if verifySig lic.signature sid pk lic.expiry_timestamp then
        .ok terms
      else
        .error (.LicenseInvalid sid)
    else
      .error (.LicenseInvalid sid)

/-- C4: whenever `validate` fails — license missing, expired, or bad
signature — the error is exactly `LicenseInvalid(shard_id)`; no other
error value ever escapes, so the caller cannot distinguish the cause. -/
theorem C4_undifferentiated_license_failure
    (table : List (License × LicenseTerms))
    (verifySig : Signature → ShardId → PublicKey → Nat → Bool)
    (sid : ShardId) (pk : PublicKey) (now : Nat) (e : AuriaError)
    (hfail : validate table verifySig sid pk now = .error e) :
    e = .LicenseInvalid sid := by
  unfold validate at hfail
  revert hfail
  match findLicense table sid pk with
  | none => intro hfail; simpa using hfail.symm
  | some (lic, terms) =>
    by_cases hexp : now < lic.expiry_timestamp
    · by_cases hsig : verifySig lic.signature sid pk lic.expiry_timestamp
      · intro hfail; simp [hexp, hsig] at hfail
      · intro hfail; simp [hexp, hsig] at hfail; exact hfail.symm
    · intro hfail; simp [hexp] at hfail; exact hfail.symm

/-- Witness for C4: validation against an empty license table fails and
the theorem identifies the error as `LicenseInvalid`. -/
theorem C4_undifferentiated_license_failure_witness :
    AuriaError.LicenseInvalid ⟨[3]⟩ = .LicenseInvalid ⟨[3]⟩ :=
  C4_undifferentiated_license_failure [] (fun _ _ _ _ => true)
    ⟨[3]⟩ ⟨[4]⟩ 0 (.LicenseInvalid ⟨[3]⟩) rfl

/-- C5: if the license bound to (shard_id, node_pubkey) is expired
(`now ≥ expiry_timestamp`), `validate` fails with `LicenseInvalid`
regardless of what the signature oracle answers. -/
theorem C5_expired_license_rejected
    (table : List (License × LicenseTerms))
    (verifySig : Signature → ShardId → PublicKey → Nat → Bool)
    (sid : ShardId) (pk : PublicKey) (now : Nat)
    (lic : License) (terms : LicenseTerms)
    (hfound : findLicense table sid pk = some (lic, terms))
    (hexp : lic.expiry_timestamp ≤ now) :
    validate table verifySig sid pk now = .error (.LicenseInvalid sid) := by
  unfold validate
  rw [hfound]
  have hnl : ¬ now < lic.expiry_timestamp := by omega
  simp [hnl]

/-- Witness for C5: a license expired at time 5 is rejected at time 5
even though the signature oracle returns true. -/
theorem C5_expired_license_rejected_witness :
    validate [(⟨⟨[3]⟩, ⟨[4]⟩, 5, ⟨[0]⟩⟩, ⟨.Community "c", 1, [], none⟩)]
        (fun _ _ _ _ => true) ⟨[3]⟩ ⟨[4]⟩ 5
      = .error (.LicenseInvalid ⟨[3]⟩) :=
  C5_expired_license_rejected
    [(⟨⟨[3]⟩, ⟨[4]⟩, 5, ⟨[0]⟩⟩, ⟨.Community "c", 1, [], none⟩)]
    (fun _ _ _ _ => true) ⟨[3]⟩ ⟨[4]⟩ 5
    ⟨⟨[3]⟩, ⟨[4]⟩, 5, ⟨[0]⟩⟩ ⟨.Community "c", 1, [], none⟩ rfl (by decide)

/-! ## UsageMeter (spec §4.3; behaviour not present in `src/`) -/

/-- Outcome of a charge: admitted and debited, or rejected with no state
change (spec §7 "rate-limited/insufficient-credit: admission denied, no
state change"). -/
inductive ChargeResult where
  | charged
  | rejected
deriving DecidableEq

/-- Modelled from the spec: the per-license-type admission check of
`UsageMeter::charge` (spec §4.3). Subscription: daily request cap;
pay-per-use: `tokens × cost_per_token ≤ credits` counting the tokens
already consumed (the worked example treats credits as depleted by prior
charges); enterprise: unlimited or a concurrent-request ceiling (the
current concurrency is the extra argument `concurrent`); community: a
named tier's fixed allowance (`allowanceOf`). -/
def admits (allowanceOf : String → Nat) (concurrent : Nat)
    (usage : LicenseUsage) (terms : LicenseTerms) (tokens : Nat) : Bool :=
  match terms.license_type with
  | .Subscription _ maxReq => usage.requests_made < maxReq
  | .PayPerUse credits cost =>
      ((usage.tokens_used + tokens : Nat) : ℚ) * cost ≤ (credits : ℚ)
  | .Enterprise unlimited maxConc => unlimited || concurrent < maxConc
  | .Community tier => usage.requests_made < allowanceOf tier

/-- Modelled from the spec: `UsageMeter::charge` (spec §4.3), state
passing in place of `&mut LicenseUsage`. On success the counters are
incremented and `last_updated` set to `now`; on rejection the usage is
returned untouched (charge is all-or-nothing). -/
def charge (allowanceOf : String → Nat) (concurrent : Nat)
    (usage : LicenseUsage) (terms : LicenseTerms) (tokens : Nat) (now : Nat) :
    ChargeResult × LicenseUsage :=
  if admits allowanceOf concurrent usage terms tokens then
    (.charged,
      { usage with
          tokens_used := usage.tokens_used + tokens,
          requests_made := usage.requests_made + 1,
          last_updated := now })
  else
    (.rejected, usage)

/-- C6: charge is all-or-nothing — a rejected charge returns the usage
counters untouched — and in the worked pay-per-use example
(credits = 100, cost_per_token = 2.0) a charge for 40 tokens succeeds
and a following charge for 15 tokens is rejected leaving the counters
exactly as after the first charge. -/
theorem C6_charge_all_or_nothing :
    (∀ (allowanceOf : String → Nat) (concurrent : Nat)
        (usage : LicenseUsage) (terms : LicenseTerms) (tokens now : Nat),
      (charge allowanceOf concurrent usage terms tokens now).1 = .rejected →
        (charge allowanceOf concurrent usage terms tokens now).2 = usage) ∧
    ((charge (fun _ => 0) 0 ⟨⟨[1]⟩, ⟨[2]⟩, 0, 0, 0⟩
        ⟨.PayPerUse 100 2, 1, [], none⟩ 40 1).1 = .charged ∧
     (charge (fun _ => 0) 0 ⟨⟨[1]⟩, ⟨[2]⟩, 0, 0, 0⟩
        ⟨.PayPerUse 100 2, 1, [], none⟩ 40 1).2.tokens_used = 40 ∧
     (charge (fun _ => 0) 0 ⟨⟨[1]⟩, ⟨[2]⟩, 0, 0, 0⟩
        ⟨.PayPerUse 100 2, 1, [], none⟩ 40 1).2.requests_made = 1 ∧
     (charge (fun _ => 0) 0
        (charge (fun _ => 0) 0 ⟨⟨[1]⟩, ⟨[2]⟩, 0, 0, 0⟩
          ⟨.PayPerUse 100 2, 1, [], none⟩ 40 1).2
        ⟨.PayPerUse 100 2, 1, [], none⟩ 15 2).1 = .rejected ∧
     (charge (fun _ => 0) 0
        (charge (fun _ => 0) 0 ⟨⟨[1]⟩, ⟨[2]⟩, 0, 0, 0⟩
          ⟨.PayPerUse 100 2, 1, [], none⟩ 40 1).2
        ⟨.PayPerUse 100 2, 1, [], none⟩ 15 2).2
       = (charge (fun _ => 0) 0 ⟨⟨[1]⟩, ⟨[2]⟩, 0, 0, 0⟩
          ⟨.PayPerUse 100 2, 1, [], none⟩ 40 1).2) := by
  constructor
  · intro allowanceOf concurrent usage terms tokens now hrej
    unfold charge at hrej ⊢
    by_cases hadm : admits allowanceOf concurrent usage terms tokens
    · simp [hadm] at hrej
    · simp [hadm]
  · refine ⟨?_, ?_, ?_, ?_, ?_⟩ <;> norm_num [charge, admits]

/-- Witness for C6: a community charge against a zero allowance is
rejected and leaves the counters untouched. -/
theorem C6_charge_all_or_nothing_witness :
    (charge (fun _ => 0) 0 ⟨⟨[1]⟩, ⟨[2]⟩, 3, 4, 0⟩
        ⟨.Community "free", 1, [], none⟩ 1 5).2
      = ⟨⟨[1]⟩, ⟨[2]⟩, 3, 4, 0⟩ :=
  C6_charge_all_or_nothing.1 (fun _ => 0) 0 ⟨⟨[1]⟩, ⟨[2]⟩, 3, 4, 0⟩
    ⟨.Community "free", 1, [], none⟩ 1 5 (by decide)

/-- Token bucket state for the `RateLimit` admission gate: current token
balance and the instant of the last refill; time is ℚ seconds. -/
structure TokenBucket where
  tokens : ℚ
  last_refill : ℚ
deriving DecidableEq

/-- Modelled from the spec: continuous token-bucket refill (spec §4.3) —
the balance grows by `requests_per_second` per elapsed second, capped at
`burst_size`. -/
def refillTokens (rl : RateLimit) (b : TokenBucket) (now : ℚ) : ℚ :=
  let raw := b.tokens + (now - b.last_refill) * (rl.requests_per_second : ℚ)
  if (rl.burst_size : ℚ) ≤ raw then (rl.burst_size : ℚ) else raw

/-- Modelled from the spec: the token-bucket admission gate of the
UsageMeter (spec §4.3): a request is admitted only if the refilled
bucket holds at least 1 token, in which case one token is consumed;
otherwise it is rejected, not queued. -/
def tryAdmit (rl : RateLimit) (b : TokenBucket) (now : ℚ) : Bool × TokenBucket :=
  let t := refillTokens rl b now
  if 1 ≤ t then (true, ⟨t - 1, now⟩) else (false, ⟨t, now⟩)

/-- Run of the admission gate over a sequence of request instants,
returning each admission verdict and the final bucket. -/
def admitRun (rl : RateLimit) : TokenBucket → List ℚ → List Bool × TokenBucket
  | b, [] => ([], b)
  | b, t :: ts =>
    let r := tryAdmit rl b t
    let rest := admitRun rl r.2 ts
    (r.1 :: rest.1, rest.2)

/-- C7: the rate limit is a token bucket — a request is admitted exactly
when the refilled bucket holds at least 1 token — and with
burst_size = 5, requests_per_second = 1, five rapid requests at t = 0
all succeed, a sixth immediately after is rejected, and a request
succeeds again after waiting 1 second. -/
theorem C7_token_bucket_admission :
    (∀ (rl : RateLimit) (b : TokenBucket) (now : ℚ),
      (tryAdmit rl b now).1 = true ↔ 1 ≤ refillTokens rl b now) ∧
    ((admitRun ⟨1, 5⟩ ⟨5, 0⟩ [0, 0, 0, 0, 0, 0]).1
        = [true, true, true, true, true, false] ∧
     (tryAdmit ⟨1, 5⟩ (admitRun ⟨1, 5⟩ ⟨5, 0⟩ [0, 0, 0, 0, 0, 0]).2 1).1
        = true) := by
  constructor
  · intro rl b now
    unfold tryAdmit
    by_cases h : 1 ≤ refillTokens rl b now
    · simp [h]
    · simp [h]
  · constructor
    · norm_num [admitRun, tryAdmit, refillTokens]
    · norm_num [admitRun, tryAdmit, refillTokens]

/-! ## TierManager (spec §4.4; behaviour not present in `src/`) -/

/-- StorageTier from src/lib.rs lines 292-298, ordered by access cost
(Vram fastest, Network slowest). -/
inductive StorageTier where
  | Vram
  | Ram
  | Disk
  | Network
deriving DecidableEq

/-- ExpertCacheEntry from src/lib.rs lines 314-319: an expert bound to a
materialized tensor and a last-used timestamp. -/
structure ExpertCacheEntry where
  expert_id : ExpertId
  tensor : Tensor
  last_used_timestamp : Nat
deriving DecidableEq

/-- Capacity budget in bytes per bounded tier (`max_size_bytes` of each
`StorageTierConfig`, src/lib.rs lines 300-305); the Network tier is the
unbounded tier of last resort (spec §4.4). -/
structure TierCaps where
  vram : Nat
  ram : Nat
  disk : Nat
deriving DecidableEq

/-- Modelled from the spec: the TierManager's internal tables (spec §4.4),
whose code is not part of this crate — one bounded store of cache entries
per tier. -/
structure TMState where
  vram : List ExpertCacheEntry
  ram : List ExpertCacheEntry
  disk : List ExpertCacheEntry
  network : List ExpertCacheEntry
deriving DecidableEq

/-- Resident byte size of one cache entry: its tensor payload. -/
def entrySize (e : ExpertCacheEntry) : Nat :=
  e.tensor.data.length

/-- Total resident bytes of one tier's table. -/
def tierBytes (l : List ExpertCacheEntry) : Nat :=
  (l.map entrySize).sum

/-- All entries of all tiers, fastest first. -/
def allEntries (s : TMState) : List ExpertCacheEntry :=
  s.vram ++ (s.ram ++ (s.disk ++ s.network))

/-- All resident expert ids across the four tiers. -/
def allIds (s : TMState) : List ExpertId :=
  (allEntries s).map (fun e => e.expert_id)

/-- Remove the least-recently-used entry (minimal `last_used_timestamp`)
from a tier table, returning it with the remaining entries. -/
def popLRU : List ExpertCacheEntry → Option (ExpertCacheEntry × List ExpertCacheEntry)
  | [] => none
  | e :: rest =>
    match popLRU rest with
    | none => some (e, [])
    | some (m, others) =>
      if e.last_used_timestamp ≤ m.last_used_timestamp then some (e, rest)
      else some (m, e :: others)

theorem popLRU_eq_none_iff : ∀ l : List ExpertCacheEntry, popLRU l = none ↔ l = [] := by
  intro l
  cases l with
  | nil => simp [popLRU]
  | cons e rest =>
    simp only [popLRU]
    constructor
    · intro h
      revert h
      match popLRU rest with
      | none => intro h; simp at h
      | some (m, others) =>
        by_cases hle : e.last_used_timestamp ≤ m.last_used_timestamp
        · simp [hle]
        · simp [hle]
    · intro h; simp at h

theorem popLRU_perm : ∀ (l : List ExpertCacheEntry) (m : ExpertCacheEntry)
    (rest : List ExpertCacheEntry), popLRU l = some (m, rest) → l.Perm (m :: rest) := by
  intro l
  induction l with
  | nil => intro m rest h; simp [popLRU] at h
  | cons e tl ih =>
    intro m rest h
    simp only [popLRU] at h
    revert h
    match hpop : popLRU tl with
    | none =>
      intro h
      have htl : tl = [] := (popLRU_eq_none_iff tl).mp hpop
      simp at h
      obtain ⟨hm, hr⟩ := h
      subst hm; subst hr; subst htl
      exact List.Perm.refl _
    | some (m0, others) =>
      by_cases hle : e.last_used_timestamp ≤ m0.last_used_timestamp
      · intro h
        simp [hle] at h
        obtain ⟨hm, hr⟩ := h
        subst hm; subst hr
        exact List.Perm.refl _
      · intro h
        simp [hle] at h
        obtain ⟨hm, hr⟩ := h
        subst hr
        rw [← hm]
        have htl : tl.Perm (m0 :: others) := ih m0 others hpop
        exact (htl.cons e).trans (List.Perm.swap m0 e others)

/-- Eviction loop of a bounded tier (spec §4.4): while the incoming
entry would overflow `cap`, pop the least-recently-used resident entry;
returns the kept entries and the evicted ones (to be demoted one tier
down). Fuel-driven so that it computes by reduction; `evictToFit`
supplies fuel covering the whole table. -/
def evictToFitAux (cap incoming : Nat) :
    Nat → List ExpertCacheEntry → List ExpertCacheEntry × List ExpertCacheEntry
  | 0, l => (l, [])
  | fuel + 1, l =>
    if tierBytes l + incoming ≤ cap then (l, [])
    else
      match popLRU l with
      | none => (l, [])
      | some (m, rest) =>
        let r := evictToFitAux cap incoming fuel rest
        (r.1, m :: r.2)

/-- Evict least-recently-used residents of a tier until the incoming
entry fits (or the tier is empty). -/
def evictToFit (cap incoming : Nat) (l : List ExpertCacheEntry) :
    List ExpertCacheEntry × List ExpertCacheEntry :=
  evictToFitAux cap incoming l.length l

theorem evictToFitAux_perm (cap incoming : Nat) :
    ∀ (fuel : Nat) (l : List ExpertCacheEntry),
      l.Perm ((evictToFitAux cap incoming fuel l).1 ++ (evictToFitAux cap incoming fuel l).2) := by
  intro fuel
  induction fuel with
  | zero => intro l; simp [evictToFitAux]
  | succ n ih =>
    intro l
    simp only [evictToFitAux]
    by_cases hfit : tierBytes l + incoming ≤ cap
    · simp [hfit]
    · simp only [hfit, if_false]
      match hpop : popLRU l with
      | none => simp
      | some (m, rest) =>
        simp only
        have h1 : l.Perm (m :: rest) := popLRU_perm l m rest hpop
        have h2 := ih rest
        have h3 : (m :: rest).Perm
            (m :: ((evictToFitAux cap incoming n rest).1 ++ (evictToFitAux cap incoming n rest).2)) :=
          h2.cons m
        have h4 : ((evictToFitAux cap incoming n rest).1 ++
            m :: (evictToFitAux cap incoming n rest).2).Perm
            (m :: ((evictToFitAux cap incoming n rest).1 ++ (evictToFitAux cap incoming n rest).2)) :=
          List.perm_middle
        exact (h1.trans h3).trans h4.symm

theorem evictToFit_perm (cap incoming : Nat) (l : List ExpertCacheEntry) :
    l.Perm ((evictToFit cap incoming l).1 ++ (evictToFit cap incoming l).2) :=
  evictToFitAux_perm cap incoming l.length l

/-- Modelled from the spec: admission into the Network tier, the tier of
last resort — unbounded, never evicted further (spec §4.4). -/
def admitNetwork (e : ExpertCacheEntry) (s : TMState) : TMState :=
  { s with network := e :: s.network }

/-- Modelled from the spec: admission into the Disk tier; residents
evicted to make room are demoted one tier down, to Network (spec §4.4). -/
def admitDisk (caps : TierCaps) (e : ExpertCacheEntry) (s : TMState) : TMState :=
  let r := evictToFit caps.disk (entrySize e) s.disk
  r.2.foldl (fun st x => admitNetwork x st) { s with disk := e :: r.1 }

/-- Modelled from the spec: admission into the Ram tier; evicted
residents are demoted one tier down, to Disk (spec §4.4). -/
def admitRam (caps : TierCaps) (e : ExpertCacheEntry) (s : TMState) : TMState :=
  let r := evictToFit caps.ram (entrySize e) s.ram
  r.2.foldl (fun st x => admitDisk caps x st) { s with ram := e :: r.1 }

/-- Modelled from the spec: admission into the Vram tier; evicted
residents are demoted one tier down, to Ram (spec §4.4). -/
def admitVram (caps : TierCaps) (e : ExpertCacheEntry) (s : TMState) : TMState :=
  let r := evictToFit caps.vram (entrySize e) s.vram
  r.2.foldl (fun st x => admitRam caps x st) { s with vram := e :: r.1 }

/-- Multiset of all resident entries, the bookkeeping view used to prove
that the admission and demotion steps move entries without duplicating
them. -/
def entsM (s : TMState) : Multiset ExpertCacheEntry :=
  (s.vram : Multiset ExpertCacheEntry) + ↑s.ram + ↑s.disk + ↑s.network

theorem entsM_allEntries (s : TMState) :
    (allEntries s : Multiset ExpertCacheEntry) = entsM s := by
  unfold allEntries entsM
  rw [← Multiset.coe_add, ← Multiset.coe_add, ← Multiset.coe_add]
  abel

theorem evictToFit_coe (cap incoming : Nat) (l : List ExpertCacheEntry) :
    (l : Multiset ExpertCacheEntry)
      = ↑(evictToFit cap incoming l).1 + ↑(evictToFit cap incoming l).2 := by
  rw [Multiset.coe_add, Multiset.coe_eq_coe]
  exact evictToFit_perm cap incoming l

theorem entsM_admitNetwork (e : ExpertCacheEntry) (s : TMState) :
    entsM (admitNetwork e s) = e ::ₘ entsM s := by
  unfold admitNetwork entsM
  simp only
  rw [← Multiset.cons_coe, Multiset.add_cons]

theorem entsM_foldl (f : ExpertCacheEntry → TMState → TMState)
    (hf : ∀ x st, entsM (f x st) = x ::ₘ entsM st) :
    ∀ (ev : List ExpertCacheEntry) (st : TMState),
      entsM (ev.foldl (fun acc x => f x acc) st) = ↑ev + entsM st := by
  intro ev
  induction ev with
  | nil => intro st; simp
  | cons x rest ih =>
    intro st
    simp only [List.foldl_cons]
    rw [ih (f x st), hf x st, Multiset.add_cons, ← Multiset.cons_coe, Multiset.cons_add]

theorem entsM_admitDisk (caps : TierCaps) (e : ExpertCacheEntry) (s : TMState) :
    entsM (admitDisk caps e s) = e ::ₘ entsM s := by
  unfold admitDisk
  simp only
  rw [entsM_foldl (fun x st => admitNetwork x st) (fun x st => entsM_admitNetwork x st)]
  show _ + entsM { s with disk := e :: (evictToFit caps.disk (entrySize e) s.disk).1 } = _
  unfold entsM
  simp only
  rw [← Multiset.cons_coe]
  have hd := evictToFit_coe caps.disk (entrySize e) s.disk
  rw [hd]
  simp only [Multiset.add_cons, Multiset.cons_add]
  congr 1
  abel

theorem entsM_admitRam (caps : TierCaps) (e : ExpertCacheEntry) (s : TMState) :
    entsM (admitRam caps e s) = e ::ₘ entsM s := by
  unfold admitRam
  simp only
  rw [entsM_foldl (fun x st => admitDisk caps x st) (fun x st => entsM_admitDisk caps x st)]
  show _ + entsM { s with ram := e :: (evictToFit caps.ram (entrySize e) s.ram).1 } = _
  unfold entsM
  simp only
  rw [← Multiset.cons_coe]
  have hd := evictToFit_coe caps.ram (entrySize e) s.ram
  rw [hd]
  simp only [Multiset.add_cons, Multiset.cons_add]
  congr 1
  abel

theorem entsM_admitVram (caps : TierCaps) (e : ExpertCacheEntry) (s : TMState) :
    entsM (admitVram caps e s) = e ::ₘ entsM s := by
  unfold admitVram
  simp only
  rw [entsM_foldl (fun x st => admitRam caps x st) (fun x st => entsM_admitRam caps x st)]
  show _ + entsM { s with vram := e :: (evictToFit caps.vram (entrySize e) s.vram).1 } = _
  unfold entsM
  simp only
  rw [← Multiset.cons_coe]
  have hd := evictToFit_coe caps.vram (entrySize e) s.vram
  rw [hd]
  simp only [Multiset.add_cons, Multiset.cons_add]
  congr 1
  abel

/-- Extract the entry with the given expert id from one tier table,
returning it together with the remaining entries. -/
def extractById : List ExpertCacheEntry → ExpertId →
    Option (ExpertCacheEntry × List ExpertCacheEntry)
  | [], _ => none
  | e :: rest, eid =>
    if e.expert_id = eid then some (e, rest)
    else
      match extractById rest eid with
      | none => none
      | some (m, others) => some (m, e :: others)

theorem extractById_some : ∀ (l : List ExpertCacheEntry) (eid : ExpertId)
    (e : ExpertCacheEntry) (rest : List ExpertCacheEntry),
    extractById l eid = some (e, rest) →
      e.expert_id = eid ∧ (l : Multiset ExpertCacheEntry) = e ::ₘ ↑rest := by
  intro l
  induction l with
  | nil => intro eid e rest h; simp [extractById] at h
  | cons x tl ih =>
    intro eid e rest h
    simp only [extractById] at h
    by_cases hx : x.expert_id = eid
    · simp [hx] at h
      obtain ⟨he, hr⟩ := h
      subst he; subst hr
      exact ⟨hx, by rw [Multiset.cons_coe]⟩
    · simp only [hx, if_false] at h
      revert h
      match hrec : extractById tl eid with
      | none => intro h; simp at h
      | some (m, others) =>
        intro h
        simp at h
        obtain ⟨hm, hr⟩ := h
        subst hr
        have hih := ih eid m others hrec
        rw [← hm]
        refine ⟨hih.1, ?_⟩
        rw [← Multiset.cons_coe, ← Multiset.cons_coe, hih.2]
        exact Multiset.cons_swap x m ↑others

theorem extractById_none : ∀ (l : List ExpertCacheEntry) (eid : ExpertId),
    extractById l eid = none → ∀ x ∈ l, x.expert_id ≠ eid := by
  intro l
  induction l with
  | nil => intro eid _ x hx; simp at hx
  | cons y tl ih =>
    intro eid h x hx
    simp only [extractById] at h
    by_cases hy : y.expert_id = eid
    · simp [hy] at h
    · simp only [hy, if_false] at h
      rcases List.mem_cons.mp hx with rfl | hxtl
      · exact hy
      · revert h
        match hrec : extractById tl eid with
        | none => intro _; exact ih eid hrec x hxtl
        | some (m, others) => intro h; simp at h

/-- Modelled from the spec: locate and withdraw a resident entry,
searching the tiers fastest first (spec §4.4 residency lookup). -/
def takeout (s : TMState) (eid : ExpertId) :
    Option (StorageTier × ExpertCacheEntry × TMState) :=
  match extractById s.vram eid with
  | some (e, rest) => some (.Vram, e, { s with vram := rest })
  | none =>
  match extractById s.ram eid with
  | some (e, rest) => some (.Ram, e, { s with ram := rest })
  | none =>
  match extractById s.disk eid with
  | some (e, rest) => some (.Disk, e, { s with disk := rest })
  | none =>
  match extractById s.network eid with
  | some (e, rest) => some (.Network, e, { s with network := rest })
  | none => none

theorem takeout_some (s : TMState) (eid : ExpertId) (t : StorageTier)
    (e : ExpertCacheEntry) (s1 : TMState)
    (h : takeout s eid = some (t, e, s1)) :
    e.expert_id = eid ∧ entsM s = e ::ₘ entsM s1 := by
  unfold takeout at h
  revert h
  match hv : extractById s.vram eid with
  | some (ev, restv) =>
    intro h
    simp only [Option.some.injEq, Prod.mk.injEq] at h
    obtain ⟨_, he, hs⟩ := h
    subst hs
    have hx := extractById_some s.vram eid ev restv hv
    rw [← he]
    refine ⟨hx.1, ?_⟩
    unfold entsM
    simp only
    rw [hx.2]
    simp [Multiset.cons_add, Multiset.add_cons]
  | none =>
  match hr : extractById s.ram eid with
  | some (er, restr) =>
    intro h
    simp only [Option.some.injEq, Prod.mk.injEq] at h
    obtain ⟨_, he, hs⟩ := h
    subst hs
    have hx := extractById_some s.ram eid er restr hr
    rw [← he]
    refine ⟨hx.1, ?_⟩
    unfold entsM
    simp only
    rw [hx.2]
    simp [Multiset.cons_add, Multiset.add_cons]
  | none =>
  match hd : extractById s.disk eid with
  | some (ed, restd) =>
    intro h
    simp only [Option.some.injEq, Prod.mk.injEq] at h
    obtain ⟨_, he, hs⟩ := h
    subst hs
    have hx := extractById_some s.disk eid ed restd hd
    rw [← he]
    refine ⟨hx.1, ?_⟩
    unfold entsM
    simp only
    rw [hx.2]
    simp only [Multiset.cons_add, Multiset.add_cons]
  | none =>
  match hn : extractById s.network eid with
  | some (en, restn) =>
    intro h
    simp only [Option.some.injEq, Prod.mk.injEq] at h
    obtain ⟨_, he, hs⟩ := h
    subst hs
    have hx := extractById_some s.network eid en restn hn
    rw [← he]
    refine ⟨hx.1, ?_⟩
    unfold entsM
    simp only
    rw [hx.2]
    simp only [Multiset.cons_add, Multiset.add_cons]
  | none => intro h; simp at h

theorem takeout_none (s : TMState) (eid : ExpertId)
    (h : takeout s eid = none) : eid ∉ allIds s := by
  unfold takeout at h
  revert h
  match hv : extractById s.vram eid with
  | some _ => intro h; simp at h
  | none =>
  match hr : extractById s.ram eid with
  | some _ => intro h; simp at h
  | none =>
  match hd : extractById s.disk eid with
  | some _ => intro h; simp at h
  | none =>
  match hn : extractById s.network eid with
  | some _ => intro h; simp at h
  | none =>
    intro _
    intro hmem
    unfold allIds allEntries at hmem
    rw [List.mem_map] at hmem
    obtain ⟨x, hx, hxid⟩ := hmem
    simp only [List.mem_append] at hx
    rcases hx with hx | hx | hx | hx
    · exact extractById_none s.vram eid hv x hx hxid
    · exact extractById_none s.ram eid hr x hx hxid
    · exact extractById_none s.disk eid hd x hx hxid
    · exact extractById_none s.network eid hn x hx hxid

/-- Free-capacity check of one tier: the entry of size `sz` fits without
eviction; the Network tier always has room (spec §4.4). -/
def tierFree (caps : TierCaps) (s : TMState) (t : StorageTier) (sz : Nat) : Bool :=
  match t with
  | .Vram => tierBytes s.vram + sz ≤ caps.vram
  | .Ram => tierBytes s.ram + sz ≤ caps.ram
  | .Disk => tierBytes s.disk + sz ≤ caps.disk
  | .Network => true

/-- Modelled from the spec: opportunistic promotion target on a cache
hit (spec §4.4 "promote toward Vram opportunistically (subject to
capacity)") — the fastest tier at or above the current one with free
capacity, else stay put. -/
def promoteTarget (caps : TierCaps) (s : TMState) (sz : Nat) :
    StorageTier → StorageTier
  | .Vram => .Vram
  | .Ram => if tierFree caps s .Vram sz then .Vram else .Ram
  | .Disk =>
    if tierFree caps s .Vram sz then .Vram
    else if tierFree caps s .Ram sz then .Ram
    else .Disk
  | .Network =>
    if tierFree caps s .Vram sz then .Vram
    else if tierFree caps s .Ram sz then .Ram
    else if tierFree caps s .Disk sz then .Disk
    else .Network

/-- Insert an entry into the table of the chosen tier. -/
def insertAt (t : StorageTier) (e : ExpertCacheEntry) (s : TMState) : TMState :=
  match t with
  | .Vram => { s with vram := e :: s.vram }
  | .Ram => { s with ram := e :: s.ram }
  | .Disk => { s with disk := e :: s.disk }
  | .Network => { s with network := e :: s.network }

theorem entsM_insertAt (t : StorageTier) (e : ExpertCacheEntry) (s : TMState) :
    entsM (insertAt t e s) = e ::ₘ entsM s := by
  cases t <;>
    simp only [insertAt, entsM, ← Multiset.cons_coe,
      Multiset.cons_add, Multiset.add_cons]

/-- Modelled from the spec: `get_or_load(expert_id)` (spec §4.4). On a
hit the entry is withdrawn from its tier, its last-used timestamp
refreshed, and it is re-inserted at the opportunistic promotion target;
on a miss the tensor is reconstructed from the ShardStore (abstracted as
`reconstruct`, whose error — e.g. `ShardNotFound` — propagates with no
partial entry published) and admitted toward Vram with cascading
LRU demotion (spec §4.4 eviction policy). -/
def getOrLoad (caps : TierCaps) (reconstruct : ExpertId → Except AuriaError Tensor)
    (now : Nat) (eid : ExpertId) (s : TMState) : Except AuriaError (Tensor × TMState) :=
  match takeout s eid with
  | some (t, e, s1) =>
    let e1 : ExpertCacheEntry := ⟨e.expert_id, e.tensor, now⟩
    .ok (e.tensor, insertAt (promoteTarget caps s1 (entrySize e1) t) e1 s1)
  | none =>
    match reconstruct eid with
    | .error err => .error err
    | .ok ten => .ok (ten, admitVram caps ⟨eid, ten, now⟩ s)

/-- Multiset of resident expert ids; the claim's invariant is that it
has no duplicates. -/
def idsM (s : TMState) : Multiset ExpertId :=
  (entsM s).map (fun e => e.expert_id)

theorem idsM_allIds (s : TMState) : (allIds s : Multiset ExpertId) = idsM s := by
  unfold allIds idsM
  rw [← entsM_allEntries, Multiset.map_coe]

theorem allIds_nodup_iff (s : TMState) : (allIds s).Nodup ↔ (idsM s).Nodup := by
  rw [← idsM_allIds, Multiset.coe_nodup]

theorem getOrLoad_nodup (caps : TierCaps)
    (reconstruct : ExpertId → Except AuriaError Tensor) (now : Nat)
    (eid : ExpertId) (s : TMState) (ten : Tensor) (s' : TMState)
    (hnd : (allIds s).Nodup)
    (h : getOrLoad caps reconstruct now eid s = .ok (ten, s')) :
    (allIds s').Nodup := by
  rw [allIds_nodup_iff] at hnd ⊢
  unfold getOrLoad at h
  revert h
  match htk : takeout s eid with
  | some (t, e, s1) =>
    intro h
    simp only [Except.ok.injEq, Prod.mk.injEq] at h
    obtain ⟨_, hs⟩ := h
    have hx := takeout_some s eid t e s1 htk
    have hids : idsM s = eid ::ₘ idsM s1 := by
      unfold idsM
      rw [hx.2, Multiset.map_cons, hx.1]
    have hids' : idsM s' = eid ::ₘ idsM s1 := by
      rw [← hs]
      unfold idsM
      rw [entsM_insertAt, Multiset.map_cons]
      show (⟨e.expert_id, e.tensor, now⟩ : ExpertCacheEntry).expert_id ::ₘ _ = _
      rw [hx.1]
    rw [hids']
    rw [hids] at hnd
    exact hnd
  | none =>
    intro h
    revert h
    match hrec : reconstruct eid with
    | .error err => intro h; simp at h
    | .ok ten0 =>
      intro h
      simp only [Except.ok.injEq, Prod.mk.injEq] at h
      obtain ⟨hten, hs⟩ := h
      have hnotin : eid ∉ allIds s := takeout_none s eid htk
      have hnotinM : eid ∉ idsM s := by
        rw [← idsM_allIds] at *
        simpa using hnotin
      have hids' : idsM s' = eid ::ₘ idsM s := by
        rw [← hs]
        unfold idsM
        rw [entsM_admitVram, Multiset.map_cons]
      rw [hids']
      exact Multiset.nodup_cons.mpr ⟨hnotinM, hnd⟩

theorem admit_nodup (caps : TierCaps) (e : ExpertCacheEntry) (s : TMState)
    (hnd : (allIds s).Nodup) (hnotin : e.expert_id ∉ allIds s) :
    (allIds (admitVram caps e s)).Nodup ∧ (allIds (admitRam caps e s)).Nodup ∧
    (allIds (admitDisk caps e s)).Nodup ∧ (allIds (admitNetwork e s)).Nodup := by
  rw [allIds_nodup_iff] at hnd
  have hnotinM : e.expert_id ∉ idsM s := by
    rw [← idsM_allIds]
    simpa using hnotin
  have hcons : (e.expert_id ::ₘ idsM s).Nodup :=
    Multiset.nodup_cons.mpr ⟨hnotinM, hnd⟩
  refine ⟨?_, ?_, ?_, ?_⟩ <;> rw [allIds_nodup_iff]
  · unfold idsM
    rw [entsM_admitVram, Multiset.map_cons]
    exact hcons
  · unfold idsM
    rw [entsM_admitRam, Multiset.map_cons]
    exact hcons
  · unfold idsM
    rw [entsM_admitDisk, Multiset.map_cons]
    exact hcons
  · unfold idsM
    rw [entsM_admitNetwork, Multiset.map_cons]
    exact hcons

/-- The TierManager starts with all tier tables empty. -/
def emptyTM : TMState :=
  ⟨[], [], [], []⟩

/-- States of the TierManager reachable through its public operation
`get_or_load` from the empty initial state. -/
inductive Reachable (caps : TierCaps)
    (reconstruct : ExpertId → Except AuriaError Tensor) : TMState → Prop
  | init : Reachable caps reconstruct emptyTM
  | step (s : TMState) (now : Nat) (eid : ExpertId) (ten : Tensor) (s' : TMState) :
      Reachable caps reconstruct s →
      getOrLoad caps reconstruct now eid s = .ok (ten, s') →
      Reachable caps reconstruct s'

/-- C3: in every reachable TierManager state each resident `ExpertId`
occupies exactly one tier (it occurs exactly once across all tier
tables); the property is preserved by every `get_or_load` step — which
performs the promotion, demotion and eviction moves internally — and by
each admission/demotion building block applied to a fresh id. -/
theorem C3_expert_resident_in_one_tier :
    (∀ (caps : TierCaps) (reconstruct : ExpertId → Except AuriaError Tensor)
        (s : TMState), Reachable caps reconstruct s →
      ∀ eid ∈ allIds s, (allIds s).count eid = 1) ∧
    (∀ (caps : TierCaps) (reconstruct : ExpertId → Except AuriaError Tensor)
        (now : Nat) (eid : ExpertId) (s : TMState) (ten : Tensor) (s' : TMState),
      (allIds s).Nodup → getOrLoad caps reconstruct now eid s = .ok (ten, s') →
        (allIds s').Nodup) ∧
    (∀ (caps : TierCaps) (e : ExpertCacheEntry) (s : TMState),
      (allIds s).Nodup → e.expert_id ∉ allIds s →
        (allIds (admitVram caps e s)).Nodup ∧ (allIds (admitRam caps e s)).Nodup ∧
        (allIds (admitDisk caps e s)).Nodup ∧ (allIds (admitNetwork e s)).Nodup) := by
  refine ⟨?_, ?_, ?_⟩
  · intro caps reconstruct s hreach
    have hnd : (allIds s).Nodup := by
      induction hreach with
      | init => simp [allIds, allEntries, emptyTM]
      | step s0 now eid ten s1 _ hstep ih =>
        exact getOrLoad_nodup caps reconstruct now eid s0 ten s1 ih hstep
    intro eid hmem
    exact List.count_eq_one_of_mem hnd hmem
  · intro caps reconstruct now eid s ten s' hnd hstep
    exact getOrLoad_nodup caps reconstruct now eid s ten s' hnd hstep
  · intro caps e s hnd hnotin
    exact admit_nodup caps e s hnd hnotin

/-- Witness for C3: after loading one expert into the empty manager the
resident id occupies exactly one tier. -/
theorem C3_expert_resident_in_one_tier_witness :
    (allIds ⟨[⟨⟨[1]⟩, ⟨[0], [1], .INT8⟩, 0⟩], [], [], []⟩).count ⟨[1]⟩ = 1 :=
  C3_expert_resident_in_one_tier.1 ⟨100, 100, 100⟩
    (fun _ => .ok ⟨[0], [1], .INT8⟩)
    ⟨[⟨⟨[1]⟩, ⟨[0], [1], .INT8⟩, 0⟩], [], [], []⟩
    (Reachable.step emptyTM 0 ⟨[1]⟩ ⟨[0], [1], .INT8⟩
      ⟨[⟨⟨[1]⟩, ⟨[0], [1], .INT8⟩, 0⟩], [], [], []⟩ Reachable.init rfl)
    ⟨[1]⟩ (by decide)

end Auria
